import Mathlib

/-!
# SimulatedHWComposer: frame-to-stripe partitioning and the bounded stripe queue

A shallow embedding of `host/frontend/vnc_server/simulated_hw_composer.cpp`.

* Machine integers are natural numbers reduced modulo `2^w` wherever the source
  stores them in a `w`-bit unsigned variable (`std::uint16_t y`, `height`;
  `std::uint32_t previous_seq_num`; `std::uint64_t stripe_seq_num`).
* `Message` (a byte vector) is a list of byte values.
* Reading a pointer range out of `raw_screen` is fallible: a range that leaves the
  vector is `none`.
* `kNumStripes`, `kMaxQueueElements` and the screen geometry are declared in headers
  that are not among the sources, so they are parameters of every definition.
-/

namespace SimulatedHWComposer

/-- A `Message` is `std::vector<std::uint8_t>`; the byte values are kept as naturals. -/
abbrev Message := List Nat

/-- The only orientation the producer ever assigns. -/
inductive ScreenOrientation where
  | Portrait
  | Landscape
  deriving DecidableEq, Repr

/-- The screen geometry provider: the non-negative `int` values returned by
`ActualScreenWidth()`, `ActualScreenHeight()` and `BytesPerPixel()` (stable for the
process lifetime). -/
structure Screen where
  width : Nat
  height : Nat
  bytes_per_pixel : Nat
  deriving DecidableEq, Repr

/-- Modelled from the spec: `ScreenSizeInBytes()` of `vnc_utils.h` (not among the
sources) is the size of "the full frame's raw bytes", that is
`width * height * bytes_per_pixel`. -/
def ScreenSizeInBytes (g : Screen) : Nat :=
  g.width * g.height * g.bytes_per_pixel

/-- The `Stripe` record as `MakeStripes` fills it in, member by member.  `y` and
`height` receive the values of the `std::uint16_t` locals of the same name. -/
structure Stripe where
  index : Nat
  frame_id : Nat
  x : Nat
  y : Nat
  width : Nat
  height : Nat
  raw_data : Message
  seq_number : Nat
  orientation : ScreenOrientation
  deriving DecidableEq, Repr

/-- Conversion of a non-negative `int` value to `std::uint16_t`. -/
def toU16 (n : Nat) : Nat := n % 65536

/-- Wrap-around increment of the `std::uint64_t` counter: `++stripe_seq_num`. -/
def incU64 (n : Nat) : Nat := (n + 1) % 18446744073709551616

/-- Conversion to `std::uint32_t`, the type of `previous_seq_num`. -/
def toU32 (n : Nat) : Nat := n % 4294967296

/-- The local `std::uint16_t y = (screen_height / kNumStripes) * i;`. -/
def stripeY (g : Screen) (kNumStripes i : Nat) : Nat :=
  toU16 ((g.height / kNumStripes) * i)

/-- The local `std::uint16_t height = screen_height / kNumStripes +
(i + 1 == kNumStripes ? screen_height % kNumStripes : 0);`. -/
def stripeHeight (g : Screen) (kNumStripes i : Nat) : Nat :=
  toU16 (g.height / kNumStripes +
    (if i + 1 = kNumStripes then g.height % kNumStripes else 0))

/-- The index of `raw_start` in `raw_screen`: `y * ActualScreenWidth() * BytesPerPixel()`. -/
def rawStart (g : Screen) (kNumStripes i : Nat) : Nat :=
  stripeY g kNumStripes i * g.width * g.bytes_per_pixel

/-- The distance from `raw_start` to `raw_end`:
`height * ActualScreenWidth() * BytesPerPixel()`. -/
def rawLen (g : Screen) (kNumStripes i : Nat) : Nat :=
  stripeHeight g kNumStripes i * g.width * g.bytes_per_pixel

/-- The bytes `[start, start + len)` of a vector, as read by
`raw_data.assign(raw_start, raw_end)`; a range that is not inside the vector is
undefined behaviour and yields `none`. -/
def readRange (v : Message) (start len : Nat) : Option Message :=
  if start + len ≤ v.length then some ((v.drop start).take len) else none

/-- The body of the `for` loop of `MakeStripes` after `++stripe_seq_num`: builds the
stripe with index `i` from the frame copy `raw_screen`.  `stripe_seq_num` is the
already incremented counter, `previous_seq_num` the frame's sequence number. -/
def makeStripe (g : Screen) (kNumStripes : Nat) (raw_screen : Message)
    (previous_seq_num stripe_seq_num i : Nat) : Option Stripe :=
  match readRange raw_screen (rawStart g kNumStripes i) (rawLen g kNumStripes i) with
  | none => none
  | some data =>
    some { index := i
           frame_id := previous_seq_num
           x := 0
           y := stripeY g kNumStripes i
           width := g.width
           height := stripeHeight g kNumStripes i
           raw_data := data
           seq_number := stripe_seq_num
           orientation := ScreenOrientation.Portrait }

/-- The `for (int i = 0; i < kNumStripes; ++i)` loop of `MakeStripes`, started at
index `i` with `remaining = kNumStripes - i` iterations to go.  Returns the stripes
handed to `stripes_.Push`, in push order, and the final value of `stripe_seq_num`. -/
def stripeLoop (g : Screen) (kNumStripes : Nat) (raw_screen : Message)
    (previous_seq_num : Nat) : Nat → Nat → Nat → Option (List Stripe × Nat)
  | 0, _, stripe_seq_num => some ([], stripe_seq_num)
  | remaining + 1, i, stripe_seq_num =>
    match makeStripe g kNumStripes raw_screen previous_seq_num (incU64 stripe_seq_num) i with
    | none => none
    | some s =>
      match stripeLoop g kNumStripes raw_screen previous_seq_num remaining (i + 1)
          (incU64 stripe_seq_num) with
      | none => none
      | some (rest, final_seq) => some (s :: rest, final_seq)

/-- The frame copy `raw_screen.assign(frame_start, frame_start + ScreenSizeInBytes())`:
`frame` gives the byte stored at each offset from `frame_start`. -/
def assignFrame (g : Screen) (frame : Nat → Nat) : Message :=
  (List.range (ScreenSizeInBytes g)).map frame

/-- One frame of `MakeStripes` (lines 83-115): copy the frame, then run the stripe
loop from index 0. -/
def frameStripes (g : Screen) (kNumStripes : Nat) (frame : Nat → Nat)
    (previous_seq_num stripe_seq_num : Nat) : Option (List Stripe × Nat) :=
  stripeLoop g kNumStripes (assignFrame g frame) previous_seq_num kNumStripes 0 stripe_seq_num

/-! ## The bounded stripe queue -/

/-- `EraseHalfOfElements(q)`:
`q->erase(q->begin(), std::next(q->begin(), kMaxQueueElements / 2))`.
The queue is a `std::deque`, kept as a list with the head (oldest element) first.
Advancing `begin()` past `end()` is undefined behaviour and yields `none`. -/
def EraseHalfOfElements {α : Type} (kMaxQueueElements : Nat) (q : List α) : Option (List α) :=
  if kMaxQueueElements / 2 ≤ q.length then some (q.drop (kMaxQueueElements / 2)) else none

/-- The elements `[begin, begin + kMaxQueueElements / 2)` that the `erase` call of
`EraseHalfOfElements` destroys. -/
def erasedElements {α : Type} (kMaxQueueElements : Nat) (q : List α) : List α :=
  q.take (kMaxQueueElements / 2)

/-- Modelled from the spec: `ThreadSafeQueue<T>::Push` (the queue class is not among the
sources) "inserts at the tail. If the number of elements already equals capacity,
invokes the configured overflow-eviction callback before inserting".  The queue
`stripes_` is constructed with capacity `kMaxQueueElements` and the callback
`EraseHalfOfElements`. -/
def Push {α : Type} (kMaxQueueElements : Nat) (q : List α) (e : α) : Option (List α) :=
  if q.length = kMaxQueueElements then
    match EraseHalfOfElements kMaxQueueElements q with
    | none => none
    | some q' => some (q' ++ [e])
  else some (q ++ [e])

/-- Modelled from the spec: `ThreadSafeQueue<T>::Pop` "blocks the calling thread until at
least one element is present, then removes and returns the head (oldest) element".
`none` stands for a caller that is blocked on the empty queue. -/
def Pop {α : Type} (q : List α) : Option (α × List α) :=
  match q with
  | [] => none
  | h :: t => some (h, t)

/-- Up to `n` successive `Pop` calls by consumers: the elements returned, in the order
they were returned, and the queue left behind.  The sequence ends early at a `Pop`
that blocks. -/
def popMany {α : Type} : Nat → List α → List α × List α
  | 0, q => ([], q)
  | n + 1, q =>
    match Pop q with
    | none => ([], q)
    | some (h, t) => ((h :: (popMany n t).1), (popMany n t).2)

/-- One operation on the shared queue: a `Push` by the producer or a `Pop` by a consumer. -/
inductive QueueOp (α : Type) where
  | push (e : α)
  | pop

/-- The elements pushed by a sequence of operations, in push order. -/
def pushesOf {α : Type} : List (QueueOp α) → List α
  | [] => []
  | QueueOp.push e :: ops => e :: pushesOf ops
  | QueueOp.pop :: ops => pushesOf ops

/-! ## The producer as a transition system -/

/-- Where the worker thread stands in `MakeStripes`: at the `while (!closed())` test,
inside the two blocking waits of an iteration, at the head of the `for` loop with loop
variable `i`, or past the end of the `while` loop. -/
inductive Pc where
  | loopTop
  | waiting
  | forLoop (i : Nat)
  | exited
  deriving DecidableEq, Repr

/-- The state shared by the owner and the worker: the flag `closed_`, the locals of
`MakeStripes`, and the stripes handed to `stripes_.Push` so far, in push order. -/
structure Composer where
  closed_ : Bool
  pc : Pc
  previous_seq_num : Nat
  stripe_seq_num : Nat
  raw_screen : Message
  pushed : List Stripe

/-- The state right after the constructor has spawned the worker: `closed_` is false,
`previous_seq_num{}` is 0, `stripe_seq_num = 1`, `raw_screen` is empty. -/
def Composer.start : Composer :=
  { closed_ := false
    pc := Pc.loopTop
    previous_seq_num := 0
    stripe_seq_num := 1
    raw_screen := []
    pushed := [] }

/-- The atomic steps.  `close` is `SimulatedHWComposer::close()`; `tick` lets the worker
run its next statement (the loop test, or one pass of the `for` loop); `newFrame`
is the return of `WaitForAtLeastOneClientConnection` and `WaitForNewFrameSince`, which
hands over the new frame's sequence number and the bytes at `frame_start`. -/
inductive Event where
  | close
  | tick
  | newFrame (seq : Nat) (frame : Nat → Nat)

/-- One atomic step of the system.  A `tick` while the worker is blocked, and a
`newFrame` while it is not waiting, leave the state as it is. -/
def step (g : Screen) (kNumStripes : Nat) (c : Composer) : Event → Option Composer
  | Event.close => some { c with closed_ := true }
  | Event.tick =>
    match c.pc with
    | Pc.loopTop =>
      if c.closed_ then some { c with pc := Pc.exited } else some { c with pc := Pc.waiting }
    | Pc.waiting => some c
    | Pc.forLoop i =>
      if i < kNumStripes then
        match makeStripe g kNumStripes c.raw_screen c.previous_seq_num
            (incU64 c.stripe_seq_num) i with
        | none => none
        | some s =>
          some { c with
            pc := Pc.forLoop (i + 1)
            stripe_seq_num := incU64 c.stripe_seq_num
            pushed := c.pushed ++ [s] }
      else some { c with pc := Pc.loopTop }
    | Pc.exited => some c
  | Event.newFrame seq frame =>
    match c.pc with
    | Pc.waiting =>
      some { c with
        pc := Pc.forLoop 0
        previous_seq_num := toU32 seq
        raw_screen := assignFrame g frame }
    | _ => some c

/-- A run of the system over a sequence of events. -/
def run (g : Screen) (kNumStripes : Nat) : List Event → Composer → Option Composer
  | [], c => some c
  | e :: es, c =>
    match step g kNumStripes c e with
    | none => none
    | some c' => run g kNumStripes es c'

/-- One full iteration of the `while` loop with one stripe per frame, as events: the
loop test, the arrival of a frame, the single pass of the `for` loop, its exit. -/
def oneStripeIteration : List Event :=
  [Event.tick, Event.newFrame 0 (fun _ => 0), Event.tick, Event.tick]

/-- The events of `n` successive iterations with one stripe per frame. -/
def iterations : Nat → List Event
  | 0 => []
  | n + 1 => oneStripeIteration ++ iterations n

/-- The invariant of the producer: while the worker is in the `for` loop the frame copy
has `ScreenSizeInBytes()` bytes and the loop variable is at most `kNumStripes`; the
counter `stripe_seq_num` is one more than the number of stripes pushed (modulo `2^64`);
the stripe pushed at position `k` (counting from 0) carries `seq_number = k + 2` (modulo
`2^64`). -/
def WellFormed (g : Screen) (kNumStripes : Nat) (c : Composer) : Prop :=
  (∀ i, c.pc = Pc.forLoop i →
    c.raw_screen.length = ScreenSizeInBytes g ∧ i ≤ kNumStripes) ∧
  c.stripe_seq_num = (c.pushed.length + 1) % 18446744073709551616 ∧
  ∀ k st, c.pushed[k]? = some st → st.seq_number = (k + 2) % 18446744073709551616

/-! ## Closed form of one frame's stripes -/

/-- The stripe `makeStripe` returns when its byte range is inside `raw_screen`. -/
def stripeAt (g : Screen) (kNumStripes : Nat) (raw_screen : Message)
    (previous_seq_num stripe_seq_num i : Nat) : Stripe :=
  { index := i
    frame_id := previous_seq_num
    x := 0
    y := stripeY g kNumStripes i
    width := g.width
    height := stripeHeight g kNumStripes i
    raw_data := (raw_screen.drop (rawStart g kNumStripes i)).take (rawLen g kNumStripes i)
    seq_number := stripe_seq_num
    orientation := ScreenOrientation.Portrait }

theorem toU16_le (n : Nat) : toU16 n ≤ n := Nat.mod_le n 65536

theorem toU16_of_lt {n : Nat} (h : n < 65536) : toU16 n = n := Nat.mod_eq_of_lt h

theorem toU16_lt_of_ge {n : Nat} (h : 65536 ≤ n) : toU16 n < n :=
  lt_of_lt_of_le (Nat.mod_lt n (by decide)) h

/-- Exact (untruncated) rows: the band of stripe `i` ends inside the screen. -/
theorem exact_rows_le (H N i : Nat) (hi : i < N) :
    (H / N) * i + (H / N + (if i + 1 = N then H % N else 0)) ≤ H := by
  have hdm : N * (H / N) + H % N = H := Nat.div_add_mod H N
  by_cases hlast : i + 1 = N
  · rw [if_pos hlast]
    have h1 : (H / N) * i + H / N = N * (H / N) := by
      rw [← hlast]; ring
    omega
  · rw [if_neg hlast]
    have h2 : (H / N) * i + H / N = (H / N) * (i + 1) := by ring
    have h3 : (H / N) * (i + 1) ≤ (H / N) * N := Nat.mul_le_mul_left _ (by omega)
    have h4 : (H / N) * N = N * (H / N) := Nat.mul_comm _ _
    omega

/-- The stored 16-bit `y` and `height` of a stripe never reach past the last row. -/
theorem y_add_height_le (g : Screen) (N i : Nat) (hi : i < N) :
    stripeY g N i + stripeHeight g N i ≤ g.height := by
  have hex := exact_rows_le g.height N i hi
  unfold stripeY stripeHeight
  by_cases hy : (g.height / N) * i < 65536
  · rw [toU16_of_lt hy]
    have := toU16_le (g.height / N + (if i + 1 = N then g.height % N else 0))
    omega
  · have h1 : toU16 ((g.height / N) * i) < 65536 := Nat.mod_lt _ (by decide)
    have h2 := toU16_le (g.height / N + (if i + 1 = N then g.height % N else 0))
    omega

/-- The byte range of every stripe is inside a frame copy of `ScreenSizeInBytes()` bytes. -/
theorem range_in_bounds (g : Screen) (N i : Nat) (hi : i < N) :
    rawStart g N i + rawLen g N i ≤ ScreenSizeInBytes g := by
  have h := y_add_height_le g N i hi
  unfold rawStart rawLen ScreenSizeInBytes
  calc stripeY g N i * g.width * g.bytes_per_pixel
        + stripeHeight g N i * g.width * g.bytes_per_pixel
      = (stripeY g N i + stripeHeight g N i) * (g.width * g.bytes_per_pixel) := by ring
    _ ≤ g.height * (g.width * g.bytes_per_pixel) := Nat.mul_le_mul_right _ h
    _ = g.width * g.height * g.bytes_per_pixel := by ring

theorem makeStripe_eq (g : Screen) (N : Nat) (raw : Message) (p s i : Nat)
    (hraw : raw.length = ScreenSizeInBytes g) (hi : i < N) :
    makeStripe g N raw p s i = some (stripeAt g N raw p s i) := by
  have hb := range_in_bounds g N i hi
  unfold makeStripe readRange
  rw [if_pos (by rw [hraw]; exact hb)]
  rfl

theorem stripeLoop_eq (g : Screen) (N : Nat) (raw : Message) (p : Nat)
    (hraw : raw.length = ScreenSizeInBytes g) :
    ∀ (remaining i s : Nat), i + remaining ≤ N →
      stripeLoop g N raw p remaining i s =
        some ((List.range remaining).map
                (fun k => stripeAt g N raw p (incU64^[k + 1] s) (i + k)),
              incU64^[remaining] s) := by
  intro remaining
  induction remaining with
  | zero => intro i s _; simp [stripeLoop]
  | succ r ih =>
    intro i s h
    rw [stripeLoop, makeStripe_eq g N raw p _ i hraw (by omega)]
    rw [ih (i + 1) (incU64 s) (by omega)]
    have hidx : ∀ k, i + 1 + k = i + (k + 1) := fun k => by omega
    simp [List.range_succ_eq_map, List.map_map, Function.comp_def, hidx]

theorem assignFrame_length (g : Screen) (frame : Nat → Nat) :
    (assignFrame g frame).length = ScreenSizeInBytes g := by
  simp [assignFrame]

theorem frameStripes_eq (g : Screen) (N : Nat) (frame : Nat → Nat) (p s : Nat) :
    frameStripes g N frame p s =
      some ((List.range N).map
              (fun k => stripeAt g N (assignFrame g frame) p (incU64^[k + 1] s) k),
            incU64^[N] s) := by
  unfold frameStripes
  rw [stripeLoop_eq g N _ p (assignFrame_length g frame) N 0 s (by omega)]
  simp

/-! ## Heights and offsets of one frame -/

theorem stripeHeight_not_last (g : Screen) (N i : Nat) (h : i + 1 ≠ N) :
    stripeHeight g N i = toU16 (g.height / N) := by
  unfold stripeHeight
  rw [if_neg h, Nat.add_zero]

theorem stripeHeight_last (g : Screen) (N i : Nat) (h : i + 1 = N) :
    stripeHeight g N i = toU16 (g.height / N + g.height % N) := by
  unfold stripeHeight
  rw [if_pos h]

theorem heights_prefix_sum (g : Screen) (N : Nat) :
    ∀ m, m < N → ((List.range m).map (stripeHeight g N)).sum = m * toU16 (g.height / N) := by
  intro m
  induction m with
  | zero => intro _; simp
  | succ k ih =>
    intro hk
    rw [List.range_succ, List.map_append, List.sum_append, ih (by omega)]
    rw [List.map_singleton, List.sum_singleton, stripeHeight_not_last g N k (by omega)]
    ring

theorem heights_sum (g : Screen) (N : Nat) (hN : 1 ≤ N) :
    ((List.range N).map (stripeHeight g N)).sum =
      (N - 1) * toU16 (g.height / N) + toU16 (g.height / N + g.height % N) := by
  obtain ⟨m, rfl⟩ : ∃ m, N = m + 1 := ⟨N - 1, by omega⟩
  rw [List.range_succ, List.map_append, List.sum_append, heights_prefix_sum g (m + 1) m (by omega)]
  rw [List.map_singleton, List.sum_singleton, stripeHeight_last g (m + 1) m rfl]
  simp

theorem frameStripes_heights (g : Screen) (N : Nat) (raw : Message) (p s : Nat) :
    ((List.range N).map (fun k => stripeAt g N raw p (incU64^[k + 1] s) k)).map Stripe.height
      = (List.range N).map (stripeHeight g N) := by
  rw [List.map_map]
  rfl

theorem frameStripes_ys (g : Screen) (N : Nat) (raw : Message) (p s : Nat) :
    ((List.range N).map (fun k => stripeAt g N raw p (incU64^[k + 1] s) k)).map Stripe.y
      = (List.range N).map (stripeY g N) := by
  rw [List.map_map]
  rfl

theorem frameStripes_indices (g : Screen) (N : Nat) (raw : Message) (p s : Nat) :
    ((List.range N).map (fun k => stripeAt g N raw p (incU64^[k + 1] s) k)).map Stripe.index
      = List.range N := by
  rw [List.map_map]
  exact List.map_id _

/-- Under the no-truncation condition the exact rows add up to the screen height. -/
theorem exact_sum (H N : Nat) (hN : 1 ≤ N) :
    (N - 1) * (H / N) + (H / N + H % N) = H := by
  have hdm : N * (H / N) + H % N = H := Nat.div_add_mod H N
  obtain ⟨m, rfl⟩ : ∃ m, N = m + 1 := ⟨N - 1, by omega⟩
  have : (m + 1 - 1) * (H / (m + 1)) + H / (m + 1) = (m + 1) * (H / (m + 1)) := by
    simp only [Nat.add_sub_cancel]; ring
  omega

/-! ## Claims about one frame -/

/-- C1 (counterexample): with `kNumStripes = 1` and a screen of 65536 rows the single
stripe of a frame stores height `0` in its 16-bit field, so the heights of the frame
sum to `0`, not to the screen height `65536`. -/
theorem C1_counterexample :
    ∃ ss n, frameStripes ⟨1, 65536, 1⟩ 1 (fun _ => 0) 0 1 = some (ss, n) ∧
      (ss.map Stripe.height).sum = 0 ∧ (ss.map Stripe.height).sum ≠ 65536 := by
  refine ⟨_, _, frameStripes_eq _ _ _ _ _, ?_⟩
  rw [frameStripes_heights]
  decide

/-- C1 (amended): for `kNumStripes = N ≥ 1`, one frame pushes exactly `N` stripes; if the
last stripe's row count `H / N + H % N` fits the 16-bit height field (in particular
whenever `H < 65536`) the stored heights sum to exactly the screen height `H`, and
otherwise they sum to less than `H`. -/
theorem C1_heights_sum (g : Screen) (N : Nat) (frame : Nat → Nat) (p s : Nat)
    (hN : 1 ≤ N) :
    ∃ ss n, frameStripes g N frame p s = some (ss, n) ∧ ss.length = N ∧
      (g.height / N + g.height % N < 65536 → (ss.map Stripe.height).sum = g.height) ∧
      (65536 ≤ g.height / N + g.height % N → (ss.map Stripe.height).sum < g.height) := by
  refine ⟨_, _, frameStripes_eq g N frame p s, by simp, ?_, ?_⟩
  · intro hfit
    rw [frameStripes_heights, heights_sum g N hN]
    have hq : g.height / N < 65536 := by omega
    rw [toU16_of_lt hq, toU16_of_lt hfit]
    exact exact_sum g.height N hN
  · intro hbig
    rw [frameStripes_heights, heights_sum g N hN]
    have h1 : toU16 (g.height / N + g.height % N) < g.height / N + g.height % N :=
      toU16_lt_of_ge hbig
    have h2 : (N - 1) * toU16 (g.height / N) ≤ (N - 1) * (g.height / N) :=
      Nat.mul_le_mul_left _ (toU16_le _)
    have h3 := exact_sum g.height N hN
    omega

/-- C1 (witness): a 402-row screen cut into 4 stripes. -/
theorem C1_heights_sum_witness :
    1 ≤ 4 ∧ (402 / 4 + 402 % 4 < 65536) ∧
    ∃ ss n, frameStripes ⟨2, 402, 4⟩ 4 (fun k => k % 256) 7 1 = some (ss, n) ∧ ss.length = 4 ∧
      ((⟨2, 402, 4⟩ : Screen).height / 4 + (⟨2, 402, 4⟩ : Screen).height % 4 < 65536 →
        (ss.map Stripe.height).sum = (⟨2, 402, 4⟩ : Screen).height) ∧
      (65536 ≤ (⟨2, 402, 4⟩ : Screen).height / 4 + (⟨2, 402, 4⟩ : Screen).height % 4 →
        (ss.map Stripe.height).sum < (⟨2, 402, 4⟩ : Screen).height) :=
  ⟨by decide, by decide, C1_heights_sum ⟨2, 402, 4⟩ 4 (fun k => k % 256) 7 1 (by decide)⟩

theorem mem_frame_list {g : Screen} {N : Nat} {raw : Message} {p s : Nat} {st : Stripe}
    (h : st ∈ (List.range N).map (fun k => stripeAt g N raw p (incU64^[k + 1] s) k)) :
    ∃ k, k < N ∧ st = stripeAt g N raw p (incU64^[k + 1] s) k := by
  rw [List.mem_map] at h
  obtain ⟨k, hk, rfl⟩ := h
  exact ⟨k, List.mem_range.mp hk, rfl⟩

theorem getElem?_frame_list {g : Screen} {N : Nat} {raw : Message} {p s i : Nat} {st : Stripe}
    (h : ((List.range N).map (fun k => stripeAt g N raw p (incU64^[k + 1] s) k))[i]? = some st) :
    i < N ∧ st = stripeAt g N raw p (incU64^[i + 1] s) i := by
  rw [List.getElem?_map] at h
  by_cases hi : i < N
  · rw [List.getElem?_range hi] at h
    simp only [Option.map_some', Option.some.injEq] at h
    exact ⟨hi, h.symm⟩
  · rw [List.getElem?_eq_none (by simp; omega)] at h
    simp at h

/-- C2 (counterexample): with `kNumStripes = 2` and a screen of 131072 rows the claim
asks for heights `[65536, 65536]`, but both stripes store `0` in the 16-bit field. -/
theorem C2_counterexample :
    ∃ ss n, frameStripes ⟨1, 131072, 1⟩ 2 (fun _ => 0) 0 1 = some (ss, n) ∧
      ss.map Stripe.height = [0, 0] ∧
      ss.map Stripe.height ≠ [131072 / 2, 131072 / 2 + 131072 % 2] := by
  refine ⟨_, _, frameStripes_eq _ _ _ _ _, ?_⟩
  rw [frameStripes_heights]
  decide

/-- C2 (amended): for `kNumStripes = N ≥ 1` and a screen height `H` whose last-stripe row
count `H / N + H % N` fits the 16-bit height field (in particular whenever `H < 65536`),
the frame's stripes carry the indices `0 .. N-1` in order, the stripe with index `N-1` has
height `H / N + H % N` and every stripe with a smaller index has height `H / N`; for
`N = 4`, `H = 402` the heights are `[100, 100, 100, 102]`. -/
theorem C2_stripe_heights (g : Screen) (N : Nat) (frame : Nat → Nat) (p s : Nat)
    (hN : 1 ≤ N) (hfit : g.height / N + g.height % N < 65536) :
    ∃ ss n, frameStripes g N frame p s = some (ss, n) ∧
      ss.map Stripe.index = List.range N ∧
      (∀ st ∈ ss, (st.index + 1 = N → st.height = g.height / N + g.height % N) ∧
                  (st.index + 1 < N → st.height = g.height / N)) ∧
      (N = 4 → g.height = 402 → ss.map Stripe.height = [100, 100, 100, 102]) := by
  refine ⟨_, _, frameStripes_eq g N frame p s, frameStripes_indices _ _ _ _ _, ?_, ?_⟩
  · intro st hst
    obtain ⟨k, _, rfl⟩ := mem_frame_list hst
    constructor
    · intro hlast
      show stripeHeight g N k = _
      rw [stripeHeight_last g N k hlast, toU16_of_lt hfit]
    · intro hnot
      show stripeHeight g N k = _
      have hk : k + 1 < N := hnot
      rw [stripeHeight_not_last g N k (by omega), toU16_of_lt (by omega)]
  · intro h4 h402
    subst h4
    rw [frameStripes_heights]
    simp [List.range_succ, stripeHeight, toU16, h402]

/-- C2 (witness): the scenario `kNumStripes = 4`, `screen_height = 402`. -/
theorem C2_stripe_heights_witness :
    1 ≤ 4 ∧ 402 / 4 + 402 % 4 < 65536 ∧
    ∃ ss n, frameStripes ⟨3, 402, 4⟩ 4 (fun k => k % 256) 9 1 = some (ss, n) ∧
      ss.map Stripe.index = List.range 4 ∧
      (∀ st ∈ ss, (st.index + 1 = 4 → st.height = 402 / 4 + 402 % 4) ∧
                  (st.index + 1 < 4 → st.height = 402 / 4)) ∧
      (4 = 4 → 402 = 402 → ss.map Stripe.height = [100, 100, 100, 102]) :=
  ⟨by decide, by decide,
    C2_stripe_heights ⟨3, 402, 4⟩ 4 (fun k => k % 256) 9 1 (by decide) (by decide)⟩

/-- C8 (counterexample): `kNumStripes = 4 ≥ 1` and `screen_height = 262144 ≥ 4`, yet every
stripe of the frame stores height `0`. -/
theorem C8_counterexample :
    1 ≤ 4 ∧ 4 ≤ 262144 ∧
    ∃ ss n, frameStripes ⟨1, 262144, 1⟩ 4 (fun _ => 0) 0 1 = some (ss, n) ∧
      ss.map Stripe.height = [0, 0, 0, 0] ∧
      ¬ (∀ h ∈ ss.map Stripe.height, 1 ≤ h) := by
  refine ⟨by decide, by decide, _, _, frameStripes_eq _ _ _ _ _, ?_⟩
  rw [frameStripes_heights]
  decide

/-- C8 (amended): for `kNumStripes = N ≥ 1` and `screen_height = H ≥ N` with
`H / N + H % N < 65536` (in particular whenever `H < 65536`), exactly `N` stripes are
pushed for a frame and each of them stores a height of at least 1. -/
theorem C8_no_empty_stripe (g : Screen) (N : Nat) (frame : Nat → Nat) (p s : Nat)
    (hN : 1 ≤ N) (hH : N ≤ g.height) (hfit : g.height / N + g.height % N < 65536) :
    ∃ ss n, frameStripes g N frame p s = some (ss, n) ∧ ss.length = N ∧
      ∀ st ∈ ss, 1 ≤ st.height := by
  refine ⟨_, _, frameStripes_eq g N frame p s, by simp, ?_⟩
  intro st hst
  obtain ⟨k, _, rfl⟩ := mem_frame_list hst
  show 1 ≤ stripeHeight g N k
  have hq : 1 ≤ g.height / N := (Nat.one_le_div_iff (by omega)).mpr hH
  by_cases hlast : k + 1 = N
  · rw [stripeHeight_last g N k hlast, toU16_of_lt hfit]
    omega
  · rw [stripeHeight_not_last g N k hlast, toU16_of_lt (by omega)]
    exact hq

/-- C8 (witness): four stripes of a five-row screen. -/
theorem C8_no_empty_stripe_witness :
    1 ≤ 4 ∧ 4 ≤ 5 ∧ 5 / 4 + 5 % 4 < 65536 ∧
    ∃ ss n, frameStripes ⟨2, 5, 1⟩ 4 (fun k => k % 256) 3 1 = some (ss, n) ∧ ss.length = 4 ∧
      ∀ st ∈ ss, 1 ≤ st.height :=
  ⟨by decide, by decide, by decide,
    C8_no_empty_stripe ⟨2, 5, 1⟩ 4 (fun k => k % 256) 3 1 (by decide) (by decide) (by decide)⟩

/-- C7 (counterexample): with `kNumStripes = 3` and a screen of 120000 rows, stripe 2 has
`y = 14464` while the heights of stripes 0 and 1 sum to `80000`. -/
theorem C7_counterexample :
    ∃ ss n, frameStripes ⟨1, 120000, 1⟩ 3 (fun _ => 0) 0 1 = some (ss, n) ∧
      (ss.map Stripe.y)[2]? = some 14464 ∧
      ((ss.map Stripe.height).take 2).sum = 80000 ∧
      (ss.map Stripe.y)[2]? ≠ some ((ss.map Stripe.height).take 2).sum := by
  refine ⟨_, _, frameStripes_eq _ _ _ _ _, ?_⟩
  rw [frameStripes_heights, frameStripes_ys]
  decide

/-- C7 (amended): for `kNumStripes = N ≥ 1` and a screen height `H` with
`(H / N) * (N - 1) < 65536` (in particular whenever `H < 65536`), the stripe at position
`i` of a frame has `x = 0`, index `i`, and `y` equal to the sum of the heights of the
stripes before it, so stripe 0 has `y = 0` and each next stripe starts at `y + height` of its
predecessor; for `N = 4`, `H = 402` the y-offsets are `[0, 100, 200, 300]`. -/
theorem C7_y_offsets (g : Screen) (N : Nat) (frame : Nat → Nat) (p s : Nat)
    (hN : 1 ≤ N) (hfit : (g.height / N) * (N - 1) < 65536) :
    ∃ ss n, frameStripes g N frame p s = some (ss, n) ∧ ss.length = N ∧
      (∀ i st, ss[i]? = some st →
        st.x = 0 ∧ st.index = i ∧ st.y = ((ss.take i).map Stripe.height).sum) ∧
      (∀ i st st', ss[i]? = some st → ss[i + 1]? = some st' → st'.y = st.y + st.height) ∧
      (N = 4 → g.height = 402 → ss.map Stripe.y = [0, 100, 200, 300]) := by
  have hy : ∀ i, i < N → stripeY g N i = (g.height / N) * i := by
    intro i hi
    unfold stripeY
    apply toU16_of_lt
    have : (g.height / N) * i ≤ (g.height / N) * (N - 1) := Nat.mul_le_mul_left _ (by omega)
    omega
  have hh : ∀ i, i + 1 < N → stripeHeight g N i = g.height / N := by
    intro i hi
    rw [stripeHeight_not_last g N i (by omega)]
    apply toU16_of_lt
    have : (g.height / N) * 1 ≤ (g.height / N) * (N - 1) := Nat.mul_le_mul_left _ (by omega)
    omega
  refine ⟨_, _, frameStripes_eq g N frame p s, by simp, ?_, ?_, ?_⟩
  · intro i st hst
    obtain ⟨hi, rfl⟩ := getElem?_frame_list hst
    refine ⟨rfl, rfl, ?_⟩
    show stripeY g N i = _
    rw [← List.map_take, List.map_map]
    have htake : (List.range N).take i = List.range i := by
      rw [List.take_range, Nat.min_eq_left (by omega)]
    rw [htake]
    have hsum := heights_prefix_sum g N i hi
    have hcomp : List.map (Stripe.height ∘ fun k =>
        stripeAt g N (assignFrame g frame) p (incU64^[k + 1] s) k) (List.range i)
        = List.map (stripeHeight g N) (List.range i) := rfl
    rw [hcomp, hsum, hy i hi]
    rcases Nat.eq_zero_or_pos i with h0 | hpos
    · subst h0; simp
    · have := hh 0 (by omega)
      rw [stripeHeight_not_last g N 0 (by omega)] at this
      rw [this]; ring
  · intro i st st' hst hst'
    obtain ⟨_, rfl⟩ := getElem?_frame_list hst
    obtain ⟨hi', rfl⟩ := getElem?_frame_list hst'
    show stripeY g N (i + 1) = stripeY g N i + stripeHeight g N i
    rw [hy (i + 1) hi', hy i (by omega), hh i hi']
    ring
  · intro h4 h402
    subst h4
    rw [frameStripes_ys]
    simp [List.range_succ, stripeY, toU16, h402]

/-- C7 (witness): the scenario `kNumStripes = 4`, `screen_height = 402`. -/
theorem C7_y_offsets_witness :
    1 ≤ 4 ∧ (402 / 4) * (4 - 1) < 65536 ∧
    ∃ ss n, frameStripes ⟨3, 402, 4⟩ 4 (fun k => k % 256) 9 1 = some (ss, n) ∧ ss.length = 4 ∧
      (∀ i st, ss[i]? = some st →
        st.x = 0 ∧ st.index = i ∧ st.y = ((ss.take i).map Stripe.height).sum) ∧
      (∀ i st st', ss[i]? = some st → ss[i + 1]? = some st' → st'.y = st.y + st.height) ∧
      (4 = 4 → (⟨3, 402, 4⟩ : Screen).height = 402 → ss.map Stripe.y = [0, 100, 200, 300]) :=
  ⟨by decide, by decide,
    C7_y_offsets ⟨3, 402, 4⟩ 4 (fun k => k % 256) 9 1 (by decide) (by decide)⟩

/-- C6: for every frame copy `raw_screen` of `ScreenSizeInBytes() = width * H *
bytes_per_pixel` bytes and every stripe index `i < kNumStripes`, the loop body produces a
stripe whose `raw_data` is the range of `raw_screen` that starts at byte
`y * width * bytes_per_pixel` and is `height * width * bytes_per_pixel` bytes long (the
rows `[y, y + height)`, which end at or before the last row); the range lies inside
`raw_screen`, byte `k` of `raw_data` is byte `start + k` of the copy, and
`raw_data.size() == width * height * bytes_per_pixel`. -/
theorem C6_raw_data_rows (g : Screen) (N : Nat) (raw_screen : Message) (p s i : Nat)
    (hraw : raw_screen.length = ScreenSizeInBytes g) (hi : i < N) :
    ∃ st, makeStripe g N raw_screen p s i = some st ∧
      st.raw_data = (raw_screen.drop (st.y * g.width * g.bytes_per_pixel)).take
                      (st.height * g.width * g.bytes_per_pixel) ∧
      st.y + st.height ≤ g.height ∧
      st.y * g.width * g.bytes_per_pixel + st.height * g.width * g.bytes_per_pixel
        ≤ raw_screen.length ∧
      (∀ k, k < st.height * g.width * g.bytes_per_pixel →
        st.raw_data[k]? = raw_screen[st.y * g.width * g.bytes_per_pixel + k]?) ∧
      st.raw_data.length = g.width * st.height * g.bytes_per_pixel := by
  have hb : rawStart g N i + rawLen g N i ≤ raw_screen.length := by
    rw [hraw]; exact range_in_bounds g N i hi
  refine ⟨_, makeStripe_eq g N raw_screen p s i hraw hi, rfl, y_add_height_le g N i hi, hb, ?_, ?_⟩
  · intro k hk
    show ((raw_screen.drop (rawStart g N i)).take (rawLen g N i))[k]? = raw_screen[rawStart g N i + k]?
    have hk' : k < rawLen g N i := hk
    rw [List.getElem?_take_of_lt hk', List.getElem?_drop]
  · show ((raw_screen.drop (rawStart g N i)).take (rawLen g N i)).length
      = g.width * stripeHeight g N i * g.bytes_per_pixel
    rw [List.length_take, List.length_drop, Nat.min_eq_left (by omega)]
    unfold rawLen
    ring

/-- C6 (witness): the second of two stripes of a 2x2 screen with one byte per pixel. -/
theorem C6_raw_data_rows_witness :
    [10, 11, 12, 13].length = ScreenSizeInBytes ⟨2, 2, 1⟩ ∧ 1 < 2 ∧
    ∃ st, makeStripe ⟨2, 2, 1⟩ 2 [10, 11, 12, 13] 5 3 1 = some st ∧
      st.raw_data = (([10, 11, 12, 13] : Message).drop (st.y * 2 * 1)).take (st.height * 2 * 1) ∧
      st.y + st.height ≤ 2 ∧
      st.y * 2 * 1 + st.height * 2 * 1 ≤ ([10, 11, 12, 13] : Message).length ∧
      (∀ k, k < st.height * 2 * 1 →
        st.raw_data[k]? = ([10, 11, 12, 13] : Message)[st.y * 2 * 1 + k]?) ∧
      st.raw_data.length = 2 * st.height * 1 :=
  ⟨by decide, by decide, C6_raw_data_rows ⟨2, 2, 1⟩ 2 [10, 11, 12, 13] 5 3 1 (by decide) (by decide)⟩

/-! ## The bounded queue -/

theorem Push_full {α : Type} (K : Nat) (q : List α) (e : α) (hfull : q.length = K) :
    Push K q e = some (q.drop (K / 2) ++ [e]) := by
  subst hfull
  have hle : q.length / 2 ≤ q.length := Nat.div_le_self _ 2
  simp [Push, EraseHalfOfElements, hle]

theorem popMany_all {α : Type} : ∀ (q : List α), popMany q.length q = (q, []) := by
  intro q
  induction q with
  | nil => rfl
  | cons h t ih => simp [popMany, Pop, ih]

/-- C4 (counterexample): a queue of capacity 3 that holds 3 elements holds 3 elements
again after a push, not `3 / 2 + 1 = 2`. -/
theorem C4_counterexample :
    ([1, 2, 3] : List Nat).length = 3 ∧ Push 3 [1, 2, 3] 4 = some [2, 3, 4] ∧
      (Push 3 [1, 2, 3] 4).map List.length ≠ some (3 / 2 + 1) := by
  decide

/-- C4 (amended): a push into a queue that holds exactly `capacity = kMaxQueueElements`
elements first runs `EraseHalfOfElements` and then appends the new element, and leaves
the queue with exactly `capacity - capacity / 2 + 1` elements; this is `capacity / 2 + 1`
when the capacity is even, and 101 for `capacity = 200`. -/
theorem C4_size_after_push {α : Type} (K : Nat) (q : List α) (e : α)
    (hfull : q.length = K) :
    ∃ q1 q2, EraseHalfOfElements K q = some q1 ∧ Push K q e = some q2 ∧ q2 = q1 ++ [e] ∧
      q2.length = K - K / 2 + 1 ∧
      (K % 2 = 0 → q2.length = K / 2 + 1) ∧
      (K = 200 → q2.length = 101) := by
  have hle : K / 2 ≤ q.length := by rw [hfull]; exact Nat.div_le_self K 2
  have hlen : (q.drop (K / 2) ++ [e]).length = K - K / 2 + 1 := by
    rw [List.length_append, List.length_drop, hfull]; rfl
  refine ⟨q.drop (K / 2), q.drop (K / 2) ++ [e], by simp [EraseHalfOfElements, hle],
    Push_full K q e hfull, rfl, hlen, ?_, ?_⟩
  · intro heven
    rw [hlen]; omega
  · intro h200
    rw [hlen]; omega

/-- C4 (witness): a full queue of capacity 4. -/
theorem C4_size_after_push_witness :
    ([5, 6, 7, 8] : List Nat).length = 4 ∧
    ∃ q1 q2, EraseHalfOfElements 4 ([5, 6, 7, 8] : List Nat) = some q1 ∧
      Push 4 [5, 6, 7, 8] 9 = some q2 ∧ q2 = q1 ++ [9] ∧
      q2.length = 4 - 4 / 2 + 1 ∧
      (4 % 2 = 0 → q2.length = 4 / 2 + 1) ∧
      (4 = 200 → q2.length = 101) :=
  ⟨by decide, C4_size_after_push 4 [5, 6, 7, 8] 9 (by decide)⟩

/-- C5: for a full queue `q` (length `capacity = kMaxQueueElements`) and a new element
`e`, `EraseHalfOfElements` removes exactly the `capacity / 2` oldest elements (positions
`[0, capacity / 2)`) and leaves the rest untouched; the queue after the push is the
remaining old elements in their original order followed by `e`, these are the last
`capacity - capacity / 2` elements of `q` (the most recently pushed ones) plus `e`, and
popping the queue empty returns exactly them, in push order. -/
theorem C5_eviction_keeps_newest {α : Type} (K : Nat) (q : List α) (e : α)
    (hfull : q.length = K) :
    EraseHalfOfElements K q = some (q.drop (K / 2)) ∧
    q = erasedElements K q ++ q.drop (K / 2) ∧
    (erasedElements K q).length = K / 2 ∧
    (∀ k, k < K / 2 → (erasedElements K q)[k]? = q[k]?) ∧
    (∀ k, (q.drop (K / 2))[k]? = q[K / 2 + k]?) ∧
    Push K q e = some (q.drop (K / 2) ++ [e]) ∧
    (q.drop (K / 2) ++ [e]).length = K - K / 2 + 1 ∧
    popMany (K - K / 2 + 1) (q.drop (K / 2) ++ [e]) = (q.drop (K / 2) ++ [e], []) := by
  have hle : K / 2 ≤ q.length := by rw [hfull]; exact Nat.div_le_self K 2
  have hlen : (q.drop (K / 2) ++ [e]).length = K - K / 2 + 1 := by
    rw [List.length_append, List.length_drop, hfull]; rfl
  refine ⟨by simp [EraseHalfOfElements, hle], (List.take_append_drop _ _).symm,
    by simp [erasedElements, hle], ?_, ?_, Push_full K q e hfull, hlen, ?_⟩
  · intro k hk
    exact List.getElem?_take_of_lt hk
  · intro k
    exact List.getElem?_drop _ _ _
  · rw [← hlen]
    exact popMany_all _

/-- C5 (witness): a full queue of capacity 5. -/
theorem C5_eviction_keeps_newest_witness :
    ([1, 2, 3, 4, 5] : List Nat).length = 5 ∧
    Push 5 ([1, 2, 3, 4, 5] : List Nat) 6 = some (([1, 2, 3, 4, 5] : List Nat).drop (5 / 2) ++ [6]) ∧
    popMany (5 - 5 / 2 + 1) (([1, 2, 3, 4, 5] : List Nat).drop (5 / 2) ++ [6])
      = (([1, 2, 3, 4, 5] : List Nat).drop (5 / 2) ++ [6], []) :=
  ⟨by decide, (C5_eviction_keeps_newest 5 [1, 2, 3, 4, 5] 6 (by decide)).2.2.2.2.2.1,
    (C5_eviction_keeps_newest 5 [1, 2, 3, 4, 5] 6 (by decide)).2.2.2.2.2.2.2⟩

/-! ## Eviction never reaches the frame being pushed -/

theorem pushesOf_map_push {α : Type} (xs : List α) : pushesOf (xs.map QueueOp.push) = xs := by
  induction xs with
  | nil => rfl
  | cons x xs ih => simp [pushesOf, ih]

theorem incU64_iterate (k s : Nat) :
    incU64^[k + 1] s = (s + k + 1) % 18446744073709551616 := by
  induction k with
  | zero => rfl
  | succ k ih =>
    rw [Function.iterate_succ_apply', ih]
    unfold incU64
    omega

theorem wellFormed_start (g : Screen) (N : Nat) : WellFormed g N Composer.start := by
  refine ⟨?_, rfl, ?_⟩
  · intro i h; cases h
  · intro k st h; simp [Composer.start] at h

theorem step_wellFormed (g : Screen) (N : Nat) (c : Composer) (e : Event)
    (h : WellFormed g N c) : ∃ c', step g N c e = some c' ∧ WellFormed g N c' := by
  obtain ⟨hloop, hseq, hlog⟩ := h
  cases e with
  | close => exact ⟨_, rfl, hloop, hseq, hlog⟩
  | newFrame seq frame =>
    cases hpc : c.pc with
    | waiting =>
      refine ⟨{ c with pc := Pc.forLoop 0, previous_seq_num := toU32 seq,
                       raw_screen := assignFrame g frame }, by simp [step, hpc], ?_, hseq, hlog⟩
      intro i hi
      simp only [Pc.forLoop.injEq] at hi
      exact ⟨assignFrame_length g frame, by omega⟩
    | loopTop => exact ⟨c, by simp [step, hpc], hloop, hseq, hlog⟩
    | forLoop i => exact ⟨c, by simp [step, hpc], hloop, hseq, hlog⟩
    | exited => exact ⟨c, by simp [step, hpc], hloop, hseq, hlog⟩
  | tick =>
    cases hpc : c.pc with
    | waiting => exact ⟨c, by simp [step, hpc], hloop, hseq, hlog⟩
    | exited => exact ⟨c, by simp [step, hpc], hloop, hseq, hlog⟩
    | loopTop =>
      by_cases hcl : c.closed_ = true
      · refine ⟨{ c with pc := Pc.exited }, by simp [step, hpc, hcl], ?_, hseq, hlog⟩
        intro i hi; cases hi
      · refine ⟨{ c with pc := Pc.waiting }, by simp [step, hpc, hcl], ?_, hseq, hlog⟩
        intro i hi; cases hi
    | forLoop i =>
      obtain ⟨hraw, hiN⟩ := hloop i hpc
      by_cases hlt : i < N
      · refine ⟨{ c with
            pc := Pc.forLoop (i + 1)
            stripe_seq_num := incU64 c.stripe_seq_num
            pushed := c.pushed ++ [stripeAt g N c.raw_screen c.previous_seq_num
              (incU64 c.stripe_seq_num) i] }, ?_, ?_, ?_, ?_⟩
        · simp [step, hpc, hlt, makeStripe_eq g N c.raw_screen _ _ i hraw hlt]
        · intro j hj
          simp only [Pc.forLoop.injEq] at hj
          exact ⟨hraw, by omega⟩
        · show incU64 c.stripe_seq_num = _
          rw [hseq]
          simp only [List.length_append, List.length_singleton]
          unfold incU64
          omega
        · intro k st hk
          show st.seq_number = _
          by_cases hkl : k < c.pushed.length
          · rw [List.getElem?_append_left hkl] at hk
            exact hlog k st hk
          · have hkl' : c.pushed.length ≤ k := by omega
            rw [List.getElem?_append_right hkl'] at hk
            have hk0 : k - c.pushed.length = 0 := by
              by_contra hne
              rw [List.getElem?_eq_none (by simp; omega)] at hk
              cases hk
            rw [hk0] at hk
            simp only [List.getElem?_cons_zero, Option.some.injEq] at hk
            subst hk
            show incU64 c.stripe_seq_num = _
            rw [hseq]
            unfold incU64
            have : k = c.pushed.length := by omega
            subst this
            omega
      · refine ⟨{ c with pc := Pc.loopTop }, by simp [step, hpc, hlt], ?_, hseq, hlog⟩
        intro j hj; cases hj

theorem run_wellFormed (g : Screen) (N : Nat) :
    ∀ (es : List Event) (c : Composer), WellFormed g N c →
      ∃ c', run g N es c = some c' ∧ WellFormed g N c' := by
  intro es
  induction es with
  | nil => intro c h; exact ⟨c, rfl, h⟩
  | cons e es ih =>
    intro c h
    obtain ⟨c1, h1, hw1⟩ := step_wellFormed g N c e h
    obtain ⟨c2, h2, hw2⟩ := ih c1 hw1
    exact ⟨c2, by simp [run, h1, h2], hw2⟩

/-- One iteration of the `while` loop with `kNumStripes = 1` pushes one stripe and is
back at the loop test. -/
theorem run_oneStripeIteration (g : Screen) (c : Composer) (h : WellFormed g 1 c)
    (hpc : c.pc = Pc.loopTop) (hcl : c.closed_ = false) :
    ∃ c', run g 1 oneStripeIteration c = some c' ∧ WellFormed g 1 c' ∧
      c'.pc = Pc.loopTop ∧ c'.closed_ = false ∧ c'.pushed.length = c.pushed.length + 1 := by
  obtain ⟨c', hrun, hwf⟩ := run_wellFormed g 1 oneStripeIteration c h
  refine ⟨c', hrun, hwf, ?_⟩
  have hb := range_in_bounds g 1 0 (by decide)
  have hlen := assignFrame_length g (fun _ => 0)
  simp [run, step, oneStripeIteration, hpc, hcl, makeStripe, readRange, hlen, hb] at hrun
  subst hrun
  simp

theorem run_append (g : Screen) (N : Nat) :
    ∀ (es es' : List Event) (c c1 : Composer), run g N es c = some c1 →
      run g N (es ++ es') c = run g N es' c1 := by
  intro es
  induction es with
  | nil => intro es' c c1 h; simp only [run, Option.some.injEq] at h; subst h; rfl
  | cons e es ih =>
    intro es' c c1 h
    simp only [run, List.cons_append] at h ⊢
    cases hs : step g N c e with
    | none => rw [hs] at h; cases h
    | some c2 =>
      rw [hs] at h
      exact ih es' c2 c1 h

theorem run_iterations (g : Screen) :
    ∀ (n : Nat) (c : Composer), WellFormed g 1 c → c.pc = Pc.loopTop → c.closed_ = false →
      ∃ c', run g 1 (iterations n) c = some c' ∧ WellFormed g 1 c' ∧
        c'.pc = Pc.loopTop ∧ c'.closed_ = false ∧ c'.pushed.length = c.pushed.length + n := by
  intro n
  induction n with
  | zero => intro c h hpc hcl; exact ⟨c, rfl, h, hpc, hcl, rfl⟩
  | succ n ih =>
    intro c h hpc hcl
    obtain ⟨c1, h1, hw1, hpc1, hcl1, hl1⟩ := run_oneStripeIteration g c h hpc hcl
    obtain ⟨c2, h2, hw2, hpc2, hcl2, hl2⟩ := ih c1 hw1 hpc1 hcl1
    refine ⟨c2, ?_, hw2, hpc2, hcl2, by omega⟩
    show run g 1 (oneStripeIteration ++ iterations n) c = some c2
    rw [run_append g 1 _ _ c c1 h1]
    exact h2

/-- C3 (counterexample): in the run that processes `2^64 - 1` frames with one stripe
each, the stripe pushed last (position `2^64 - 2`) carries `seq_number = 0`, which is
smaller than the `seq_number = 2` of the stripe pushed first: the 64-bit counter has
wrapped around. -/
theorem C3_counterexample :
    ∃ c a b, run ⟨1, 1, 1⟩ 1 (iterations 18446744073709551615) Composer.start = some c ∧
      c.pushed[0]? = some a ∧ c.pushed[18446744073709551614]? = some b ∧
      a.seq_number = 2 ∧ b.seq_number = 0 ∧ b.seq_number < a.seq_number := by
  obtain ⟨c, hrun, hwf, _, _, hlen⟩ :=
    run_iterations ⟨1, 1, 1⟩ 18446744073709551615 Composer.start
      (wellFormed_start _ 1) rfl rfl
  have hlen0 : Composer.start.pushed.length = 0 := rfl
  rw [hlen0, Nat.zero_add] at hlen
  have h0 : 0 < c.pushed.length := by rw [hlen]; norm_num
  have h1 : 18446744073709551614 < c.pushed.length := by rw [hlen]; norm_num
  have ha := hwf.2.2 0 _ (List.getElem?_eq_getElem h0)
  have hb := hwf.2.2 18446744073709551614 _ (List.getElem?_eq_getElem h1)
  have ha' : (c.pushed.get ⟨0, h0⟩).seq_number = 2 := by
    simpa using ha
  have hb' : (c.pushed.get ⟨18446744073709551614, h1⟩).seq_number = 0 := by
    simpa using hb
  refine ⟨c, _, _, hrun, List.getElem?_eq_getElem h0, List.getElem?_eq_getElem h1, ?_, ?_, ?_⟩
  · exact ha'
  · exact hb'
  · show (c.pushed.get ⟨18446744073709551614, h1⟩).seq_number
      < (c.pushed.get ⟨0, h0⟩).seq_number
    rw [ha', hb']
    norm_num

/-- C3 (amended): every run of `MakeStripes` from its start is defined, and among the
first `2^64 - 2` stripes it pushes (positions `k` with `k + 2 < 2^64`, before the 64-bit
counter wraps) the stripe at position `k` carries `seq_number = k + 2`, so a stripe pushed
later has a strictly greater `seq_number` than any stripe pushed earlier and no two of
them share one; within one frame whose stripes are numbered before the counter wraps, a
stripe with a smaller index has a smaller `seq_number`. -/
theorem C3_seq_numbers_increase (g : Screen) (N : Nat) (es : List Event) :
    ∃ c, run g N es Composer.start = some c ∧
      (∀ k st, k + 2 < 18446744073709551616 → c.pushed[k]? = some st →
        st.seq_number = k + 2) ∧
      (∀ j k a b, j < k → k + 2 < 18446744073709551616 →
        c.pushed[j]? = some a → c.pushed[k]? = some b → a.seq_number < b.seq_number) ∧
      (∀ frame p s ss n, s + N < 18446744073709551616 →
        frameStripes g N frame p s = some (ss, n) →
        ∀ a ∈ ss, ∀ b ∈ ss, a.index < b.index → a.seq_number < b.seq_number) := by
  obtain ⟨c, hrun, hwf⟩ := run_wellFormed g N es Composer.start (wellFormed_start g N)
  refine ⟨c, hrun, ?_, ?_, ?_⟩
  · intro k st hk hst
    rw [hwf.2.2 k st hst, Nat.mod_eq_of_lt hk]
  · intro j k a b hjk hk ha hb
    rw [hwf.2.2 j a ha, hwf.2.2 k b hb, Nat.mod_eq_of_lt hk, Nat.mod_eq_of_lt (by omega)]
    omega
  · intro frame p s ss n hs hframe a ha b hb hidx
    rw [frameStripes_eq] at hframe
    simp only [Option.some.injEq, Prod.mk.injEq] at hframe
    obtain ⟨rfl, _⟩ := hframe
    obtain ⟨i, hi, rfl⟩ := mem_frame_list ha
    obtain ⟨j, hj, rfl⟩ := mem_frame_list hb
    have hij : i < j := hidx
    show incU64^[i + 1] s < incU64^[j + 1] s
    rw [incU64_iterate, incU64_iterate, Nat.mod_eq_of_lt (by omega), Nat.mod_eq_of_lt (by omega)]
    omega

/-! ## Shutdown -/

theorem step_closed_mono (g : Screen) (N : Nat) (c c' : Composer) (e : Event)
    (h : step g N c e = some c') (hcl : c.closed_ = true) : c'.closed_ = true := by
  cases e with
  | close => simp only [step, Option.some.injEq] at h; subst h; rfl
  | newFrame seq frame =>
    cases hpc : c.pc <;> simp only [step, hpc, Option.some.injEq] at h <;> subst h <;> exact hcl
  | tick =>
    cases hpc : c.pc with
    | waiting => simp only [step, hpc, Option.some.injEq] at h; subst h; exact hcl
    | exited => simp only [step, hpc, Option.some.injEq] at h; subst h; exact hcl
    | loopTop =>
      simp only [step, hpc, hcl, if_true, Option.some.injEq] at h
      subst h; rfl
    | forLoop i =>
      simp only [step, hpc] at h
      split at h
      · split at h
        · cases h
        · simp only [Option.some.injEq] at h; subst h; exact hcl
      · simp only [Option.some.injEq] at h; subst h; exact hcl

theorem step_pushed_grows (g : Screen) (N : Nat) (c c' : Composer) (e : Event)
    (h : step g N c e = some c') : c.pushed <+: c'.pushed := by
  cases e with
  | close => simp only [step, Option.some.injEq] at h; subst h; exact List.prefix_refl _
  | newFrame seq frame =>
    cases hpc : c.pc <;> simp only [step, hpc, Option.some.injEq] at h <;> subst h <;>
      exact List.prefix_refl _
  | tick =>
    cases hpc : c.pc with
    | waiting => simp only [step, hpc, Option.some.injEq] at h; subst h; exact List.prefix_refl _
    | exited => simp only [step, hpc, Option.some.injEq] at h; subst h; exact List.prefix_refl _
    | loopTop =>
      simp only [step, hpc] at h
      split at h <;> simp only [Option.some.injEq] at h <;> subst h <;> exact List.prefix_refl _
    | forLoop i =>
      simp only [step, hpc] at h
      split at h
      · split at h
        · cases h
        · simp only [Option.some.injEq] at h; subst h; exact List.prefix_append _ _
      · simp only [Option.some.injEq] at h; subst h; exact List.prefix_refl _

theorem run_pushed_grows (g : Screen) (N : Nat) :
    ∀ (es : List Event) (c c' : Composer), run g N es c = some c' →
      c.pushed <+: c'.pushed := by
  intro es
  induction es with
  | nil => intro c c' h; simp only [run, Option.some.injEq] at h; subst h; exact List.prefix_refl _
  | cons e es ih =>
    intro c c' h
    simp only [run] at h
    cases hs : step g N c e with
    | none => rw [hs] at h; cases h
    | some c1 =>
      rw [hs] at h
      exact (step_pushed_grows g N c c1 e hs).trans (ih c1 c' h)

theorem run_exited (g : Screen) (N : Nat) :
    ∀ (es : List Event) (c : Composer), c.pc = Pc.exited →
      ∃ c', run g N es c = some c' ∧ c'.pc = Pc.exited ∧ c'.pushed = c.pushed := by
  intro es
  induction es with
  | nil => intro c h; exact ⟨c, rfl, h, rfl⟩
  | cons e es ih =>
    intro c h
    cases e with
    | close =>
      obtain ⟨c', h1, h2, h3⟩ := ih { c with closed_ := true } h
      exact ⟨c', by simpa [run, step] using h1, h2, h3⟩
    | tick =>
      obtain ⟨c', h1, h2, h3⟩ := ih c h
      exact ⟨c', by simpa [run, step, h] using h1, h2, h3⟩
    | newFrame seq frame =>
      obtain ⟨c', h1, h2, h3⟩ := ih c h
      exact ⟨c', by simpa [run, step, h] using h1, h2, h3⟩

theorem stripeLoop_succ_inv (g : Screen) (N : Nat) (raw : Message) (p r i s : Nat)
    (ss : List Stripe) (n : Nat)
    (h : stripeLoop g N raw p (r + 1) i s = some (ss, n)) :
    ∃ s0 rest, makeStripe g N raw p (incU64 s) i = some s0 ∧
      stripeLoop g N raw p r (i + 1) (incU64 s) = some (rest, n) ∧ ss = s0 :: rest := by
  rw [stripeLoop] at h
  cases hm : makeStripe g N raw p (incU64 s) i with
  | none => rw [hm] at h; cases h
  | some s0 =>
    rw [hm] at h
    cases hr : stripeLoop g N raw p r (i + 1) (incU64 s) with
    | none => rw [hr] at h; cases h
    | some res =>
      obtain ⟨rest, n'⟩ := res
      rw [hr] at h
      simp only [Option.some.injEq, Prod.mk.injEq] at h
      obtain ⟨h1, h2⟩ := h
      subst h1; subst h2
      exact ⟨s0, rest, rfl, rfl, rfl⟩

/-- Once the worker is in the `for` loop, every run that ends with the worker exited
has pushed the remaining stripes of the frame first. -/
theorem forLoop_completes (g : Screen) (N : Nat) :
    ∀ (es : List Event) (c : Composer) (i : Nat) (ss : List Stripe) (n : Nat),
      c.pc = Pc.forLoop i → i ≤ N →
      stripeLoop g N c.raw_screen c.previous_seq_num (N - i) i c.stripe_seq_num = some (ss, n) →
      ∀ c', run g N es c = some c' → c'.pc = Pc.exited → (c.pushed ++ ss) <+: c'.pushed := by
  intro es
  induction es with
  | nil =>
    intro c i ss n hpc _ _ c' hrun hex
    simp only [run, Option.some.injEq] at hrun
    subst hrun
    rw [hpc] at hex
    cases hex
  | cons e es ih =>
    intro c i ss n hpc hiN hloop c' hrun hex
    simp only [run] at hrun
    cases e with
    | close =>
      simp only [step] at hrun
      exact ih { c with closed_ := true } i ss n hpc hiN hloop c' hrun hex
    | newFrame seq frame =>
      simp only [step, hpc] at hrun
      exact ih c i ss n hpc hiN hloop c' hrun hex
    | tick =>
      by_cases hlt : i < N
      · obtain ⟨r, hr⟩ : ∃ r, N - i = r + 1 := ⟨N - i - 1, by omega⟩
        rw [hr] at hloop
        obtain ⟨s0, rest, hm, hrest, rfl⟩ := stripeLoop_succ_inv _ _ _ _ _ _ _ _ _ hloop
        simp only [step, hpc, hlt, if_true, hm] at hrun
        have hr' : N - (i + 1) = r := by omega
        have := ih { c with
            pc := Pc.forLoop (i + 1)
            stripe_seq_num := incU64 c.stripe_seq_num
            pushed := c.pushed ++ [s0] } (i + 1) rest n rfl (by omega)
          (by rw [hr']; exact hrest) c' hrun hex
        simpa using this
      · have h0 : N - i = 0 := by omega
        rw [h0] at hloop
        simp only [stripeLoop, Option.some.injEq, Prod.mk.injEq] at hloop
        obtain ⟨rfl, _⟩ := hloop
        simp only [step, hpc, hlt, if_false] at hrun
        have := run_pushed_grows g N es _ c' hrun
        simpa using this

/-- An iteration that is past the loop test is completed before the worker exits. -/
theorem waiting_completes (g : Screen) (N : Nat) :
    ∀ (es : List Event) (c : Composer), c.pc = Pc.waiting →
      ∀ c', run g N es c = some c' → c'.pc = Pc.exited →
        ∃ seq frame ss n,
          frameStripes g N frame (toU32 seq) c.stripe_seq_num = some (ss, n) ∧
          ss.length = N ∧ (c.pushed ++ ss) <+: c'.pushed := by
  intro es
  induction es with
  | nil =>
    intro c hpc c' hrun hex
    simp only [run, Option.some.injEq] at hrun
    subst hrun
    rw [hpc] at hex
    cases hex
  | cons e es ih =>
    intro c hpc c' hrun hex
    simp only [run] at hrun
    cases e with
    | close =>
      simp only [step] at hrun
      exact ih { c with closed_ := true } hpc c' hrun hex
    | tick =>
      simp only [step, hpc] at hrun
      exact ih c hpc c' hrun hex
    | newFrame seq frame =>
      simp only [step, hpc] at hrun
      have hfs := frameStripes_eq g N frame (toU32 seq) c.stripe_seq_num
      refine ⟨seq, frame, _, _, hfs, by simp, ?_⟩
      have := forLoop_completes g N es
        { c with pc := Pc.forLoop 0, previous_seq_num := toU32 seq,
                 raw_screen := assignFrame g frame } 0 _ _ rfl (Nat.zero_le _)
        (by rw [Nat.sub_zero]; exact hfs) c' hrun hex
      exact this

theorem step_exit_only_at_loopTop (g : Screen) (N : Nat) (c c' : Composer) (e : Event)
    (h : step g N c e = some c') (hpc : c.pc ≠ Pc.exited) (hex : c'.pc = Pc.exited) :
    c.pc = Pc.loopTop ∧ c.closed_ = true := by
  cases e with
  | close =>
    simp only [step, Option.some.injEq] at h; subst h
    exact absurd hex hpc
  | newFrame seq frame =>
    cases hc : c.pc <;> simp only [step, hc, Option.some.injEq] at h <;> subst h <;>
      simp_all
  | tick =>
    cases hc : c.pc with
    | waiting => simp only [step, hc, Option.some.injEq] at h; subst h; simp_all
    | exited => exact absurd hc hpc
    | loopTop =>
      simp only [step, hc] at h
      split at h
      · rename_i hcl; exact ⟨rfl, hcl⟩
      · simp only [Option.some.injEq] at h; subst h; cases hex
    | forLoop i =>
      simp only [step, hc] at h
      split at h
      · split at h
        · cases h
        · simp only [Option.some.injEq] at h; subst h; cases hex
      · simp only [Option.some.injEq] at h; subst h; cases hex

/-- The passes of the `for` loop, run one `tick` at a time, push what `stripeLoop`
computes. -/
theorem run_forLoop_ticks (g : Screen) (N : Nat) :
    ∀ (r : Nat) (c : Composer) (i : Nat) (ss : List Stripe) (n : Nat),
      c.pc = Pc.forLoop i → i + r = N →
      stripeLoop g N c.raw_screen c.previous_seq_num r i c.stripe_seq_num = some (ss, n) →
      run g N (List.replicate r Event.tick) c =
        some { c with pc := Pc.forLoop N, stripe_seq_num := n, pushed := c.pushed ++ ss } := by
  intro r
  induction r with
  | zero =>
    intro c i ss n hpc hi hloop
    simp only [stripeLoop, Option.some.injEq, Prod.mk.injEq] at hloop
    obtain ⟨rfl, rfl⟩ := hloop
    have hiN : i = N := by omega
    subst hiN
    cases c
    simp only at hpc
    subst hpc
    simp [run]
  | succ r ih =>
    intro c i ss n hpc hi hloop
    obtain ⟨s0, rest, hm, hrest, rfl⟩ := stripeLoop_succ_inv _ _ _ _ _ _ _ _ _ hloop
    have hlt : i < N := by omega
    simp only [List.replicate_succ, run, step, hpc, hlt, if_true, hm]
    rw [ih { c with
          pc := Pc.forLoop (i + 1)
          stripe_seq_num := incU64 c.stripe_seq_num
          pushed := c.pushed ++ [s0] } (i + 1) rest n rfl (by omega) hrest]
    simp

/-- An iteration that is past the loop test when `close()` is called runs to its end as
soon as the frame arrives: the worker pushes the frame's stripes and then exits. -/
theorem waiting_progress (g : Screen) (N : Nat) (c : Composer) (seq : Nat)
    (frame : Nat → Nat) (hpc : c.pc = Pc.waiting) :
    ∃ c' ss n,
      run g N (Event.close :: Event.newFrame seq frame :: List.replicate (N + 2) Event.tick) c
        = some c' ∧
      c'.pc = Pc.exited ∧
      frameStripes g N frame (toU32 seq) c.stripe_seq_num = some (ss, n) ∧
      ss.length = N ∧ c'.pushed = c.pushed ++ ss := by
  have hfs := frameStripes_eq g N frame (toU32 seq) c.stripe_seq_num
  have hticks := run_forLoop_ticks g N N
    { c with closed_ := true, pc := Pc.forLoop 0, previous_seq_num := toU32 seq,
             raw_screen := assignFrame g frame } 0 _ _ rfl (Nat.zero_add N) hfs
  refine ⟨{ closed_ := true, pc := Pc.exited, previous_seq_num := toU32 seq,
             stripe_seq_num := incU64^[N] c.stripe_seq_num,
             raw_screen := assignFrame g frame,
             pushed := c.pushed ++ (List.range N).map
               (fun k => stripeAt g N (assignFrame g frame) (toU32 seq)
                 (incU64^[k + 1] c.stripe_seq_num) k) },
    _, _, ?_, ?_, hfs, by simp, ?_⟩
  · have hsplit : List.replicate (N + 2) Event.tick
        = List.replicate N Event.tick ++ [Event.tick, Event.tick] := by
      rw [show N + 2 = N + (1 + 1) by omega, List.replicate_add]
      rfl
    have hhead : ∀ rest, run g N (Event.close :: Event.newFrame seq frame :: rest) c =
        run g N rest { c with closed_ := true, pc := Pc.forLoop 0,
                              previous_seq_num := toU32 seq,
                              raw_screen := assignFrame g frame } := by
      intro rest
      simp only [run, step, hpc]
    rw [hsplit, hhead, run_append g N _ _ _ _ hticks]
    simp only [run, step, lt_irrefl, if_false, if_true]
  · rfl
  · rfl

/-- C9: in the step relation of the producer (a) `close()` sets `closed_` and no step
resets it; (b) the worker leaves the loop only from the loop test and only when
`closed_` is set; (c) once the worker has exited, every further run is defined and
pushes nothing; (d) an iteration that has passed the loop test is completed whenever
`close()` is requested: every run from there that ends with the worker exited has, before
that, pushed all `kNumStripes` stripes of the iteration's frame; and (e) when the frame
arrives, the worker does push these stripes and does exit. -/
theorem C9_shutdown (g : Screen) (N : Nat) :
    (∀ c, step g N c Event.close = some { c with closed_ := true }) ∧
    (∀ c e c', step g N c e = some c' → c.closed_ = true → c'.closed_ = true) ∧
    (∀ c e c', step g N c e = some c' → c.pc ≠ Pc.exited → c'.pc = Pc.exited →
      c.pc = Pc.loopTop ∧ c.closed_ = true) ∧
    (∀ c es, c.pc = Pc.exited →
      ∃ c', run g N es c = some c' ∧ c'.pc = Pc.exited ∧ c'.pushed = c.pushed) ∧
    (∀ c es c', c.pc = Pc.waiting → run g N es c = some c' → c'.pc = Pc.exited →
      ∃ seq frame ss n,
        frameStripes g N frame (toU32 seq) c.stripe_seq_num = some (ss, n) ∧
        ss.length = N ∧ (c.pushed ++ ss) <+: c'.pushed) ∧
    (∀ c seq frame, c.pc = Pc.waiting →
      ∃ c' ss n,
        run g N (Event.close :: Event.newFrame seq frame :: List.replicate (N + 2) Event.tick) c
          = some c' ∧
        c'.pc = Pc.exited ∧
        frameStripes g N frame (toU32 seq) c.stripe_seq_num = some (ss, n) ∧
        ss.length = N ∧ c'.pushed = c.pushed ++ ss) :=
  ⟨fun _ => rfl,
   fun c e c' h hcl => step_closed_mono g N c c' e h hcl,
   fun c e c' h hpc hex => step_exit_only_at_loopTop g N c c' e h hpc hex,
   fun c es h => run_exited g N es c h,
   fun c es c' hpc hrun hex => waiting_completes g N es c hpc c' hrun hex,
   fun c seq frame hpc => waiting_progress g N c seq frame hpc⟩

/-- C9 (witness): two stripes per frame; the owner calls `close()` while the worker
waits for the first frame of a 1x2 screen. -/
theorem C9_shutdown_witness :
    ∃ c' ss n,
      run ⟨1, 2, 1⟩ 2
        (Event.close :: Event.newFrame 5 (fun k => k) :: List.replicate (2 + 2) Event.tick)
        { Composer.start with pc := Pc.waiting } = some c' ∧
      c'.pc = Pc.exited ∧
      frameStripes ⟨1, 2, 1⟩ 2 (fun k => k) (toU32 5) 1 = some (ss, n) ∧
      ss.length = 2 ∧ c'.pushed = [] ++ ss :=
  (C9_shutdown ⟨1, 2, 1⟩ 2).2.2.2.2.2 { Composer.start with pc := Pc.waiting } 5 (fun k => k) rfl

end SimulatedHWComposer
